import Mathlib

/-!
Verification development for the ascii-piet converter (ascii2piet.py).

Text is modelled as a list of natural-number codepoints (Python `str`
is a sequence of unicode codepoints; `ord`/`chr` are the identity in
this embedding).  Bytestrings are lists of naturals below 256.

All definitions are translated from src/ascii2piet.py, except the ones
whose doc comments say `Modelled from the spec:` (the PIL resize call,
which is an external library collaborator).
-/

/-- src: HUE_MASK = 0b111 -/
def HUE_MASK : Nat := 0b111

/-- src: BLACK = 0b000 -/
def BLACK : Nat := 0b000

/-- src: BLUE = 0b001 -/
def BLUE : Nat := 0b001

/-- src: GREEN = 0b010 -/
def GREEN : Nat := 0b010

/-- src: RED = 0b100 -/
def RED : Nat := 0b100

/-- src: WHITE = 0b111 -/
def WHITE : Nat := 0b111

/-- src: LIGHTNESS_MASK = 0b11000 -/
def LIGHTNESS_MASK : Nat := 0b11000

/-- src: DARK = 0b00000 -/
def DARK : Nat := 0b00000

/-- src: NORMAL = 0b01000 -/
def NORMAL : Nat := 0b01000

/-- src: LIGHT = 0b10000 -/
def LIGHT : Nat := 0b10000

/-- src: NO_EOL_MASK = 0b100000 -/
def NO_EOL_MASK : Nat := 0b100000

/-- Python `charcode &= ~NO_EOL_MASK` on a nonnegative int: clear bit 5.
On Nat this is xor with the (possibly clear) bit. -/
def clearNoEol (c : Nat) : Nat := c ^^^ (c &&& NO_EOL_MASK)

/-- Python `str.splitlines` line-boundary codepoints:
\n \v \f \r \x1c \x1d \x1e \x85     (with \r\n handled as a pair). -/
def isLineBoundary (c : Nat) : Bool :=
  c == 10 || c == 11 || c == 12 || c == 13 || c == 28 || c == 29 || c == 30 ||
  c == 133 || c == 8232 || c == 8233

/-- Worker for `splitlines`: walks the codepoints, accumulating the current
line (reversed) in `acc`; `afterCR` records that the previous codepoint was
\r, so that an immediately following \n is part of the same break. -/
def splitlinesGo : List Nat → List Nat → Bool → List (List Nat)
  | [], acc, _ => if acc = [] then [] else [acc.reverse]
  | c :: rest, acc, afterCR =>
    if afterCR ∧ c = 10 then splitlinesGo rest acc false
    else if c = 13 then acc.reverse :: splitlinesGo rest [] true
    else if isLineBoundary c then acc.reverse :: splitlinesGo rest [] false
    else splitlinesGo rest (c :: acc) false

/-- Python `str.splitlines()` (keepends=False). -/
def splitlines (s : List Nat) : List (List Nat) := splitlinesGo s [] false

/-- src encode_newlines, per-line last-character transform:
`last_charcode &= ~NO_EOL_MASK; if last_charcode < 32: last_charcode += 64`. -/
def encodeLineEnd (c : Nat) : Nat :=
  let c2 := clearNoEol c
  if c2 < 32 then c2 + 64 else c2

/-- src encode_newlines, body of the per-line loop: an empty line is dropped
(`if line:`), otherwise `line[:-1] + encoded_char`. -/
def encodeLine (line : List Nat) : List Nat :=
  match line.getLast? with
  | none => []
  | some c => line.dropLast ++ [encodeLineEnd c]

/-- src: encode_newlines — encode newlines into the EOL bit of the previous
char: split into lines, transform each nonempty line's last character,
join with no separator. -/
def encode_newlines (ascii_piet : List Nat) : List Nat :=
  ((splitlines ascii_piet).map encodeLine).flatten

/-- src decode_newlines, per-character step: `"\n"` is skipped; a char with
the no-EOL bit set passes through; otherwise it is emitted with the bit
forced on, followed by a newline. -/
def decodeChar (c : Nat) : List Nat :=
  if c = 10 then []
  else if c &&& NO_EOL_MASK ≠ 0 then [c]
  else [c ||| NO_EOL_MASK, 10]

/-- Python `str.rstrip("\n")`. -/
def rstripNewlines (s : List Nat) : List Nat :=
  (s.reverse.dropWhile (fun c => c == 10)).reverse

/-- src: decode_newlines — decode the EOL bit into actual newlines and
strip the trailing newlines. -/
def decode_newlines (ascii_piet : List Nat) : List Nat :=
  rstripNewlines (ascii_piet.flatMap decodeChar)

/-- An RGB triple. -/
abbrev RGB := Nat × Nat × Nat

/-- Uncaught Python exceptions that ascii_to_image can raise. -/
inductive PyError where
  | valueError (msg : String)
  | unboundLocalError (var : String)
deriving DecidableEq

instance {ε α : Type} [DecidableEq ε] [DecidableEq α] : DecidableEq (Except ε α) :=
  fun x y =>
  match x, y with
  | .ok a, .ok b =>
    if h : a = b then .isTrue (by rw [h])
    else .isFalse (by intro hh; cases hh; exact h rfl)
  | .ok _, .error _ => .isFalse (by intro hh; cases hh)
  | .error _, .ok _ => .isFalse (by intro hh; cases hh)
  | .error a, .error b =>
    if h : a = b then .isTrue (by rw [h])
    else .isFalse (by intro hh; cases hh; exact h rfl)

/-- src ascii_to_image, body of the per-character loop.  The `intensities`
local variable persists across iterations of the loop (Python function
scope), so it is threaded through explicitly; it starts out unassigned
(`none`), and referencing it while unassigned is an UnboundLocalError,
modelled as `none`.  Returns the RGB triple together with the value of
`intensities` after the iteration. -/
def colorStep (charcode : Nat) (intensities : Option (Nat × Nat)) :
    Option (RGB × (Nat × Nat)) :=
  let hue := charcode &&& HUE_MASK
  let lightness := charcode &&& LIGHTNESS_MASK
  let lightness := if hue = WHITE ∨ hue = BLACK then NORMAL else lightness
  let intensities :=
    if lightness = DARK then some (0, 192)
    else if lightness = NORMAL then some (0, 255)
    else if lightness = LIGHT then some (192, 255)
    else intensities
  match intensities with
  | none => none
  | some (lo, hi) =>
    some (((if hue &&& RED ≠ 0 then hi else lo),
           (if hue &&& GREEN ≠ 0 then hi else lo),
           (if hue &&& BLUE ≠ 0 then hi else lo)),
          (lo, hi))

/-- The RGB triple a character decodes to when its decoding does not consult
the leftover `intensities` state (i.e. when `colorStep c none` succeeds);
`(0, 0, 0)` is a dummy value for the failing case. -/
def codelColor (c : Nat) : RGB :=
  match colorStep c none with
  | some (rgb, _) => rgb
  | none => (0, 0, 0)

/-- The character-to-color decoding as a partial function of the character
alone (no leftover state). -/
def decodeCharColor (c : Nat) : Option RGB := (colorStep c none).map Prod.fst

/-- src ascii_to_image: the `for line: for char:` double loop building the
row-major codel list, threading the `intensities` variable. -/
def buildCodels : List Nat → Option (Nat × Nat) → Except PyError (List RGB)
  | [], _ => .ok []
  | c :: rest, st =>
    match colorStep c st with
    | none => .error (.unboundLocalError "intensities")
    | some (rgb, st2) => (buildCodels rest (some st2)).map (fun l => rgb :: l)

/-- Python `line.ljust(width, fill)`. -/
def ljust (line : List Nat) (width : Nat) (fill : Nat) : List Nat :=
  line ++ List.replicate (width - line.length) fill

/-- src ascii_to_image: `max(len(line) for line in ascii_lines)`; Python's
`max` raises `ValueError: max() arg is an empty sequence` on zero lines. -/
def maxLineLength (lines : List (List Nat)) : Except PyError Nat :=
  match lines with
  | [] => .error (.valueError "max() arg is an empty sequence")
  | l :: ls => .ok (ls.foldl (fun m line => max m line.length) l.length)

/-- src ascii_to_image, the grid-building stage, starting from the split
lines: width, height, space padding, and the codel list.  An uncaught
Python exception propagates out as the error value. -/
def build_grid (ascii_lines : List (List Nat)) :
    Except PyError (Nat × Nat × List RGB) :=
  match maxLineLength ascii_lines with
  | .error e => .error e
  | .ok image_width =>
    match buildCodels ((ascii_lines.map
        (fun line => ljust line image_width 32)).flatten) none with
    | .error e => .error e
    | .ok codels => .ok (image_width, ascii_lines.length, codels)

/-- PIL `Image.new("RGB", (w, h))` + `putdata(codels)`: cut the row-major
codel list into `h` rows of `w` pixels. -/
def toRows (w : Nat) (h : Nat) (codels : List RGB) : List (List RGB) :=
  match h with
  | 0 => []
  | h' + 1 => codels.take w :: toRows w h' (codels.drop w)

/-- Modelled from the spec: `img.resize((w*k, h*k), resample=Image.NEAREST)`
is a call into the external PIL library; the spec describes it as
nearest-neighbor magnification, every codel becoming a solid k-by-k block,
i.e. each pixel is repeated k times in its row and each row repeated
k times. -/
def resize_nearest (k : Nat) (grid : List (List RGB)) : List (List RGB) :=
  ((grid.map (fun row => (row.map (fun px => List.replicate k px)).flatten)).map
    (fun row => List.replicate k row)).flatten

/-- src: ascii_to_image — convert ASCII-encoded Piet into an image (a list
of pixel rows).  The verbose printing goes to stderr and does not affect
the result, so it is not modelled. -/
def ascii_to_image (ascii_piet : List Nat) (codel_size : Nat) :
    Except PyError (List (List RGB)) :=
  match build_grid (splitlines (decode_newlines (encode_newlines ascii_piet))) with
  | .error e => .error e
  | .ok (w, h, codels) => .ok (resize_nearest codel_size (toRows w h codels))

/-- Lowercase hexadecimal digit, as produced by Python `hex`. -/
def hexDigitChar (n : Nat) : Char :=
  if n < 10 then Char.ofNat (48 + n) else Char.ofNat (87 + n)

/-- Digit loop of Python `hex(num)[2:]` for positive `num`, fuelled (the
fuel is an upper bound on the value, which bounds the digit count). -/
def toHexCore : Nat → Nat → List Char → List Char
  | 0, _, acc => acc
  | fuel + 1, n, acc =>
    if n < 16 then hexDigitChar (n % 16) :: acc
    else toHexCore fuel (n / 16) (hexDigitChar (n % 16) :: acc)

/-- Python `hex(num)[2:]` for nonnegative `num` (lowercase, no leading
zeros, and `hex(0)[2:] = "0"`). -/
def pyHex (n : Nat) : List Char := toHexCore (n + 1) n []

/-- src: padded_hex — convert to hexadecimal and left-pad with zeros to
width (`hex_num.rjust(width, "0")` when `width > 0`). -/
def padded_hex (num : Nat) (width : Nat) : List Char :=
  let hex_num := pyHex num
  if 0 < width then List.replicate (width - hex_num.length) '0' ++ hex_num
  else hex_num

/-- Python `s.ljust(w)` on strings (pad with spaces on the right). -/
def ljustChars (s : List Char) (w : Nat) : List Char :=
  s ++ List.replicate (w - s.length) ' '

/-- src xxd: `for j in range(0, 16, 2): hexcodes += "".join(padded_hex(b, 2)
for b in block[j:j+2]) + " "` — eight iterations, two bytes each. -/
def xxdHexcodesAux : Nat → List Nat → List Char
  | 0, _ => []
  | j + 1, block =>
    ((block.take 2).flatMap (fun b => padded_hex b 2)) ++ [' '] ++
      xxdHexcodesAux j (block.drop 2)

/-- src xxd: the hex-pairs field of one row, before padding. -/
def xxdHexcodes (block : List Nat) : List Char := xxdHexcodesAux 8 block

/-- src xxd: the ASCII rendering of a block
(`chr(b) if 32 <= b <= 126 else "."`). -/
def xxdAscii (block : List Nat) : List Char :=
  block.map (fun b => if 32 ≤ b ∧ b ≤ 126 then Char.ofNat b else '.')

/-- src xxd: one row of the dump, including its trailing newline. -/
def xxdRow (i : Nat) (block : List Nat) : List Char :=
  padded_hex i 8 ++ [':', ' '] ++ ljustChars (xxdHexcodes block) 40 ++
    [' '] ++ xxdAscii block ++ ['\n']

/-- src xxd: the `while i < len(bytestring)` loop, fuelled by the number of
remaining bytes (each pass consumes at least one). -/
def xxdAux : Nat → Nat → List Nat → List Char
  | 0, _, _ => []
  | fuel + 1, i, rest =>
    match rest with
    | [] => []
    | _ :: _ => xxdRow i (rest.take 16) ++ xxdAux fuel (i + 16) (rest.drop 16)

/-- Python `str.rstrip()` whitespace test, for the characters that can
occur in a dump (the dump is ASCII, so the unicode whitespace
codepoints cannot appear). -/
def pyIsSpace (c : Char) : Bool :=
  c == ' ' || c == '\t' || c == '\n' || c == '\x0d' ||
  c == '\x0b' || c == '\x0c'

/-- Python `str.rstrip()`. -/
def rstripWhitespace (s : List Char) : List Char :=
  (s.reverse.dropWhile pyIsSpace).reverse

/-- src: xxd — xxd-style hexdump of a bytestring (`hexdump.rstrip()` at
the end). -/
def xxd (bytestring : List Nat) : List Char :=
  rstripWhitespace (xxdAux bytestring.length 0 bytestring)

/-- Modelled from the spec: `colorOf(hue, lightness) → RGB` — dark, normal
and light select the intensity pairs {0,192}, {0,255} and {192,255};
white and black coerce lightness to normal first; each channel takes the
high or low intensity according to the red/green/blue bit of the hue. -/
def colorOf (hue : Nat) (lightness : Nat) : RGB :=
  let lightness := if hue = BLACK ∨ hue = WHITE then NORMAL else lightness
  let p : Nat × Nat :=
    if lightness = DARK then (0, 192)
    else if lightness = LIGHT then (192, 255)
    else (0, 255)
  ((if hue &&& RED ≠ 0 then p.2 else p.1),
   (if hue &&& GREEN ≠ 0 then p.2 else p.1),
   (if hue &&& BLUE ≠ 0 then p.2 else p.1))

/-- Exactly `w` lowercase hex digits, most significant first (the claim's
fixed-width hex field, stated independently of padded_hex). -/
def fixedHex : Nat → Nat → List Char
  | 0, _ => []
  | w + 1, n => fixedHex w (n / 16) ++ [hexDigitChar (n % 16)]

/-- The claim's "bytes as 2-byte hex groups": pairs of bytes, a final odd
byte forming a group of its own. -/
def byteGroups : List Nat → List (List Nat)
  | [] => []
  | [b] => [[b]]
  | b1 :: b2 :: rest => [b1, b2] :: byteGroups rest

/-- One row of the claim's dump format: 8-digit lowercase hex offset,
": ", the hex groups separated by spaces and space-padded on the right to
40 characters, one space, and the ASCII rendering of the bytes present. -/
def specRow (offset : Nat) (block : List Nat) : List Char :=
  fixedHex 8 offset ++ [':', ' '] ++
    ljustChars (List.intercalate [' ']
      ((byteGroups block).map (fun g => g.flatMap (fun b => fixedHex 2 b)))) 40 ++
    [' '] ++ block.map (fun b => if 32 ≤ b ∧ b ≤ 126 then Char.ofNat b else '.')

/-- The claim's rows: one per 16 input bytes, with consecutive offsets. -/
def specRows : Nat → Nat → List Nat → List (List Char)
  | 0, _, _ => []
  | fuel + 1, offset, bs =>
    match bs with
    | [] => []
    | _ :: _ => specRow offset (bs.take 16) :: specRows fuel (offset + 16) (bs.drop 16)

/-- The claim's dump, read literally: the rows joined by newlines, with no
trailing-whitespace stripping. -/
def specDumpRaw (bs : List Nat) : List Char :=
  List.intercalate ['\n'] (specRows bs.length 0 bs)


/-- A byte whose decoding never consults the leftover intensities state:
its hue is black or white (lightness then coerced to normal), or its
lightness field is not the reserved value 0b11000. -/
def validCodel (c : Nat) : Bool :=
  c &&& HUE_MASK == BLACK || c &&& HUE_MASK == WHITE ||
    c &&& LIGHTNESS_MASK != 0b11000

/-- The width computed by ascii_to_image: the maximum line length. -/
def maxLen (lines : List (List Nat)) : Nat := (lines.map List.length).foldl max 0

/-- The row-major codel list built by ascii_to_image when every character is
a valid codel: pad each line with spaces and decode each character on its
own. -/
def gridCodels (lines : List (List Nat)) : List RGB :=
  ((lines.map (fun l => ljust l (maxLen lines) 32)).flatten).map codelColor


/-! Helper lemmas: bounded facts about single characters, settled by
evaluating them over all byte values. -/

lemma char_ge32 : ∀ c < 128, c &&& 32 ≠ 0 → 32 ≤ c := by decide

lemma char_ne10 : ∀ c < 128, c &&& 32 ≠ 0 → c ≠ 10 := by decide

lemma char_not_boundary : ∀ c < 128, 32 ≤ c → isLineBoundary c = false := by decide

lemma decodeChar_pass : ∀ c < 128, c &&& 32 ≠ 0 → decodeChar c = [c] := by decide

lemma decodeChar_encodeLineEnd : ∀ c < 128, c &&& 32 ≠ 0 → 32 ≤ clearNoEol c →
    decodeChar (encodeLineEnd c) = [c, 10] := by decide

lemma encodeLineEnd_range : ∀ c < 128, 64 ≤ encodeLineEnd c ∧ encodeLineEnd c < 96 := by
  decide

lemma encodeLineEnd_fixed : ∀ e < 96, 64 ≤ e → encodeLineEnd e = e := by decide

lemma mid_range_facts : ∀ e < 96, 64 ≤ e →
    isLineBoundary e = false ∧ e &&& 32 = 0 ∧ 32 ≤ e := by decide

/-! Helper lemmas about splitlines. -/

lemma splitlinesGo_cons_pass (c : Nat) (rest acc : List Nat)
    (hc : isLineBoundary c = false) :
    splitlinesGo (c :: rest) acc false = splitlinesGo rest (c :: acc) false := by
  have h13 : ¬(c = 13) := by
    intro e
    rw [e] at hc
    simp [isLineBoundary] at hc
  rw [splitlinesGo]
  rw [if_neg (by simp), if_neg h13, if_neg (by simp [hc])]

lemma splitlinesGo_cons_newline (rest acc : List Nat) :
    splitlinesGo (10 :: rest) acc false = acc.reverse :: splitlinesGo rest [] false := by
  rw [splitlinesGo]
  rw [if_neg (by simp), if_neg (by decide), if_pos (by simp [isLineBoundary])]

lemma splitlinesGo_append_newline (y : List Nat) :
    ∀ (u acc : List Nat), (∀ c ∈ u, isLineBoundary c = false) →
    splitlinesGo (u ++ 10 :: y) acc false =
      (acc.reverse ++ u) :: splitlinesGo y [] false := by
  intro u
  induction u with
  | nil =>
    intro acc _
    rw [List.nil_append, splitlinesGo_cons_newline]
    simp
  | cons c u ih =>
    intro acc h
    have hc : isLineBoundary c = false := h c (by simp)
    rw [List.cons_append, splitlinesGo_cons_pass c _ _ hc,
      ih (c :: acc) (fun d hd => h d (by simp [hd]))]
    simp

lemma splitlinesGo_no_boundary :
    ∀ (u acc : List Nat), (∀ c ∈ u, isLineBoundary c = false) →
    splitlinesGo u acc false =
      if acc.reverse ++ u = [] then [] else [acc.reverse ++ u] := by
  intro u
  induction u with
  | nil =>
    intro acc _
    rw [splitlinesGo]
    by_cases h : acc = [] <;> simp [h]
  | cons c u ih =>
    intro acc h
    have hc : isLineBoundary c = false := h c (by simp)
    rw [splitlinesGo_cons_pass c _ _ hc,
      ih (c :: acc) (fun d hd => h d (by simp [hd]))]
    simp

lemma splitlines_single (u : List Nat) (hne : u ≠ [])
    (h : ∀ c ∈ u, isLineBoundary c = false) : splitlines u = [u] := by
  unfold splitlines
  rw [splitlinesGo_no_boundary u [] h]
  simp [hne]

lemma intercalate_cons₂ {α : Type} (s : List α) (a b : List α) (t : List (List α)) :
    List.intercalate s (a :: b :: t) = a ++ s ++ List.intercalate s (b :: t) := by
  simp [List.intercalate, List.intersperse]

lemma intercalate_ne_nil (l : List Nat) (ls : List (List Nat)) (h : l ≠ []) :
    List.intercalate [10] (l :: ls) ≠ [] := by
  cases ls with
  | nil => simpa [List.intercalate] using h
  | cons b t =>
    rw [intercalate_cons₂]
    simp [h]

lemma splitlines_intercalate :
    ∀ (lines : List (List Nat)), (∀ l ∈ lines, l ≠ []) →
    (∀ l ∈ lines, ∀ c ∈ l, isLineBoundary c = false) →
    splitlines (List.intercalate [10] lines) = lines := by
  intro lines
  induction lines with
  | nil => intro _ _; rfl
  | cons l ls ih =>
    intro h1 h2
    cases ls with
    | nil =>
      have : List.intercalate [10] [l] = l := by simp [List.intercalate]
      rw [this]
      exact splitlines_single l (h1 l (by simp)) (h2 l (by simp))
    | cons b t =>
      rw [intercalate_cons₂, List.append_assoc, List.singleton_append]
      unfold splitlines
      rw [splitlinesGo_append_newline _ l [] (h2 l (by simp))]
      have := ih (fun x hx => h1 x (by simp [hx])) (fun x hx => h2 x (by simp [hx]))
      unfold splitlines at this
      rw [this]
      simp

/-! Helper lemmas about the trailing-strip operations. -/

lemma dropWhile_append_of_ne {α : Type} (p : α → Bool) :
    ∀ (a b : List α), List.dropWhile p a ≠ [] →
    List.dropWhile p (a ++ b) = List.dropWhile p a ++ b := by
  intro a
  induction a with
  | nil => intro b h; exact absurd rfl h
  | cons x a' ih =>
    intro b h
    by_cases hp : p x = true
    · rw [List.cons_append, List.dropWhile_cons_of_pos hp,
        List.dropWhile_cons_of_pos hp]
      exact ih b (by rwa [List.dropWhile_cons_of_pos hp] at h)
    · rw [List.cons_append, List.dropWhile_cons_of_neg hp,
        List.dropWhile_cons_of_neg hp, List.cons_append]

lemma dropWhile_append_singleton_ne {α : Type} (p : α → Bool) (c : α)
    (hc : p c = false) : ∀ a : List α, List.dropWhile p (a ++ [c]) ≠ [] := by
  intro a
  induction a with
  | nil =>
    simp [List.dropWhile, hc]
  | cons x a' ih =>
    by_cases hp : p x = true
    · rw [List.cons_append, List.dropWhile_cons_of_pos hp]
      exact ih
    · rw [List.cons_append, List.dropWhile_cons_of_neg hp]
      simp

lemma rstripNewlines_append (u v : List Nat) (h : rstripNewlines v ≠ []) :
    rstripNewlines (u ++ v) = u ++ rstripNewlines v := by
  have hd : List.dropWhile (fun c => c == 10) v.reverse ≠ [] := by
    intro e
    apply h
    unfold rstripNewlines
    rw [e]
    rfl
  unfold rstripNewlines
  rw [List.reverse_append, dropWhile_append_of_ne _ _ _ hd, List.reverse_append,
    List.reverse_reverse]

lemma rstripNewlines_append_newline (u : List Nat) :
    rstripNewlines (u ++ [10]) = rstripNewlines u := by
  unfold rstripNewlines
  rw [List.reverse_append]
  simp [List.dropWhile]

lemma rstripNewlines_eq_self (u : List Nat) (c : Nat) (hc : u.getLast? = some c)
    (h10 : c ≠ 10) : rstripNewlines u = u := by
  have hne : u ≠ [] := by
    intro e
    rw [e] at hc
    simp at hc
  have hlast : u.getLast hne = c := by
    have h2 := List.getLast?_eq_getLast u hne
    rw [hc] at h2
    exact (Option.some_inj.mp h2).symm
  have hu : u = u.dropLast ++ [c] := by
    conv_lhs => rw [← List.dropLast_append_getLast hne, hlast]
  rw [hu]
  unfold rstripNewlines
  rw [List.reverse_append]
  simp only [List.reverse_cons, List.reverse_nil, List.nil_append,
    List.singleton_append]
  rw [List.dropWhile_cons_of_neg (by simp [h10])]
  rw [List.reverse_cons, List.reverse_reverse]

/-! Helper lemmas for the decode-of-encode round trip. -/

lemma flatMap_decodeChar_pass (u : List Nat)
    (h : ∀ c ∈ u, c < 128 ∧ c &&& 32 ≠ 0) : u.flatMap decodeChar = u := by
  induction u with
  | nil => rfl
  | cons c u ih =>
    have hc := h c (by simp)
    rw [List.flatMap_cons, decodeChar_pass c hc.1 hc.2,
      ih (fun d hd => h d (by simp [hd]))]
    rfl

lemma decode_encodeLine (l : List Nat) (hne : l ≠ [])
    (hchars : ∀ c ∈ l, c < 128 ∧ c &&& 32 ≠ 0)
    (hlast : 32 ≤ clearNoEol (l.getLastD 0)) :
    (encodeLine l).flatMap decodeChar = l ++ [10] := by
  have hlq : l.getLast? = some (l.getLast hne) := List.getLast?_eq_getLast l hne
  have hmem : l.getLast hne ∈ l := List.getLast_mem hne
  have hcl := hchars _ hmem
  have hlastD : l.getLastD 0 = l.getLast hne := by
    rw [List.getLastD_eq_getLast?, hlq]
    rfl
  rw [hlastD] at hlast
  have henc : encodeLine l = l.dropLast ++ [encodeLineEnd (l.getLast hne)] := by
    unfold encodeLine
    rw [hlq]
  rw [henc, List.flatMap_append,
    flatMap_decodeChar_pass _ (fun d hd => hchars d (List.dropLast_subset l hd))]
  simp only [List.flatMap_cons, List.flatMap_nil, List.append_nil]
  rw [decodeChar_encodeLineEnd _ hcl.1 hcl.2 hlast]
  rw [show ([l.getLast hne, 10] : List Nat) = [l.getLast hne] ++ [10] from rfl]
  rw [← List.append_assoc, List.dropLast_append_getLast hne]

lemma decode_encode_lines :
    ∀ (lines : List (List Nat)), (∀ l ∈ lines, l ≠ []) →
    (∀ l ∈ lines, ∀ c ∈ l, c < 128 ∧ c &&& 32 ≠ 0) →
    (∀ l ∈ lines, 32 ≤ clearNoEol (l.getLastD 0)) →
    decode_newlines ((lines.map encodeLine).flatten) = List.intercalate [10] lines := by
  intro lines
  induction lines with
  | nil => intro _ _ _; rfl
  | cons l ls ih =>
    intro h1 h2 h3
    have hlne : l ≠ [] := h1 l (by simp)
    have hlch := h2 l (by simp)
    have hdec : (encodeLine l).flatMap decodeChar = l ++ [10] :=
      decode_encodeLine l hlne hlch (h3 l (by simp))
    rw [List.map_cons, List.flatten_cons]
    unfold decode_newlines
    rw [List.flatMap_append, hdec]
    cases ls with
    | nil =>
      simp only [List.map_nil, List.flatten_nil, List.flatMap_nil, List.append_nil]
      rw [rstripNewlines_append_newline]
      have hlast10 : l.getLast hlne ≠ 10 := by
        have hcl := hlch _ (List.getLast_mem hlne)
        exact char_ne10 _ hcl.1 hcl.2
      rw [rstripNewlines_eq_self l (l.getLast hlne) (List.getLast?_eq_getLast l hlne)
        hlast10]
      simp [List.intercalate]
    | cons b t =>
      have hih := ih (fun x hx => h1 x (by simp [hx]))
        (fun x hx => h2 x (by simp [hx])) (fun x hx => h3 x (by simp [hx]))
      unfold decode_newlines at hih
      have hbne : b ≠ [] := h1 b (by simp)
      have hne2 : rstripNewlines (((b :: t).map encodeLine).flatten.flatMap decodeChar)
          ≠ [] := by
        rw [hih]
        exact intercalate_ne_nil b t hbne
      rw [rstripNewlines_append _ _ hne2, hih, intercalate_cons₂]

/-! Helper lemmas describing the characters appearing in splitlines output
and in the output of encode_newlines. -/

lemma dropLast_append_getLast?_eq (l : List Nat) (x : Nat)
    (h : l.getLast? = some x) : l.dropLast ++ [x] = l := by
  have hne : l ≠ [] := by
    intro e
    rw [e] at h
    simp at h
  have hlast : l.getLast hne = x := by
    have h2 := List.getLast?_eq_getLast l hne
    rw [h] at h2
    exact (Option.some_inj.mp h2).symm
  rw [← hlast]
  exact List.dropLast_append_getLast hne

lemma splitlinesGo_lines_chars :
    ∀ (s : List Nat), ∀ (acc : List Nat) (flag : Bool) (line : List Nat) (c : Nat),
    (∀ a ∈ acc, isLineBoundary a = false) →
    line ∈ splitlinesGo s acc flag → c ∈ line →
    isLineBoundary c = false ∧ (c ∈ s ∨ c ∈ acc) := by
  intro s
  induction s with
  | nil =>
    intro acc flag line c hacc hline hc
    rw [splitlinesGo] at hline
    by_cases h : acc = []
    · rw [if_pos h] at hline
      simp at hline
    · rw [if_neg h] at hline
      have : line = acc.reverse := by simpa using hline
      rw [this] at hc
      exact ⟨hacc c (List.mem_reverse.mp hc), Or.inr (List.mem_reverse.mp hc)⟩
  | cons d rest ih =>
    intro acc flag line c hacc hline hc
    rw [splitlinesGo] at hline
    split_ifs at hline with h1 h2 h3
    · have := ih acc false line c hacc hline hc
      exact ⟨this.1, this.2.imp (fun hs => by simp [hs]) id⟩
    · rcases List.mem_cons.mp hline with he | hm
      · rw [he] at hc
        have : c ∈ acc := List.mem_reverse.mp hc
        exact ⟨hacc c this, Or.inr this⟩
      · have := ih [] true line c (by simp) hm hc
        rcases this.2 with hs | habs
        · exact ⟨this.1, Or.inl (by simp [hs])⟩
        · simp at habs
    · rcases List.mem_cons.mp hline with he | hm
      · rw [he] at hc
        have : c ∈ acc := List.mem_reverse.mp hc
        exact ⟨hacc c this, Or.inr this⟩
      · have := ih [] false line c (by simp) hm hc
        rcases this.2 with hs | habs
        · exact ⟨this.1, Or.inl (by simp [hs])⟩
        · simp at habs
    · have hd : isLineBoundary d = false := by
        revert h3
        cases isLineBoundary d <;> simp
      have := ih (d :: acc) false line c
        (by
          intro a ha
          rcases List.mem_cons.mp ha with h | h
          · rw [h]; exact hd
          · exact hacc a h)
        hline hc
      refine ⟨this.1, ?_⟩
      rcases this.2 with hs | hda
      · exact Or.inl (by simp [hs])
      · rcases List.mem_cons.mp hda with h | h
        · exact Or.inl (by simp [h])
        · exact Or.inr h

lemma splitlines_chars (s line : List Nat) (c : Nat) (h : line ∈ splitlines s)
    (hc : c ∈ line) : isLineBoundary c = false ∧ c ∈ s := by
  have := splitlinesGo_lines_chars s [] false line c (by simp) h hc
  exact ⟨this.1, by
    rcases this.2 with hs | habs
    · exact hs
    · simp at habs⟩

lemma encodeLineEnd_ge32 (c : Nat) : 32 ≤ encodeLineEnd c := by
  show 32 ≤ if clearNoEol c < 32 then clearNoEol c + 64 else clearNoEol c
  split_ifs with h <;> omega

lemma encodeLine_getLast?_eq (l : List Nat) (x : Nat) (h : l.getLast? = some x) :
    encodeLine l = l.dropLast ++ [encodeLineEnd x] := by
  unfold encodeLine
  rw [h]

lemma encodeLine_mem (l : List Nat) (c : Nat) (h : c ∈ encodeLine l) :
    c ∈ l.dropLast ∨ ∃ d, l.getLast? = some d ∧ c = encodeLineEnd d := by
  unfold encodeLine at h
  cases hq : l.getLast? with
  | none =>
    rw [hq] at h
    simp at h
  | some d =>
    rw [hq] at h
    rcases List.mem_append.mp h with hm | hm
    · exact Or.inl hm
    · exact Or.inr ⟨d, rfl, by simpa using hm⟩

lemma encode_newlines_mem (s : List Nat) (c : Nat) (h : c ∈ encode_newlines s) :
    (∃ line ∈ splitlines s, c ∈ line.dropLast) ∨
    (∃ line ∈ splitlines s, ∃ d, line.getLast? = some d ∧ c = encodeLineEnd d) := by
  unfold encode_newlines at h
  rcases List.mem_flatten.mp h with ⟨lc, hlc, hclc⟩
  rcases List.mem_map.mp hlc with ⟨line, hline, hle⟩
  rw [← hle] at hclc
  rcases encodeLine_mem line c hclc with hm | ⟨d, hd, he⟩
  · exact Or.inl ⟨line, hline, hm⟩
  · exact Or.inr ⟨line, hline, d, hd, he⟩

lemma encode_newlines_chars (s : List Nat) (h128 : ∀ d ∈ s, d < 128) (c : Nat)
    (hc : c ∈ encode_newlines s) : c < 128 ∧ isLineBoundary c = false := by
  rcases encode_newlines_mem s c hc with ⟨line, hline, hm⟩ | ⟨line, hline, d, hd, he⟩
  · have hcl : c ∈ line := List.dropLast_subset line hm
    have := splitlines_chars s line c hline hcl
    exact ⟨h128 c this.2, this.1⟩
  · have hdl : d ∈ line := List.mem_of_mem_getLast? hd
    have hds := splitlines_chars s line d hline hdl
    have hd128 : d < 128 := h128 d hds.2
    have hrange := encodeLineEnd_range d hd128
    rw [he]
    have hf := mid_range_facts (encodeLineEnd d) hrange.2 hrange.1
    exact ⟨by omega, hf.1⟩

lemma encode_newlines_getLast :
    ∀ (lines : List (List Nat)), (∀ l ∈ lines, ∀ c ∈ l, c < 128) →
    (lines.map encodeLine).flatten = [] ∨
      ∃ e, 64 ≤ e ∧ e < 96 ∧ ((lines.map encodeLine).flatten).getLast? = some e := by
  intro lines
  induction lines with
  | nil => intro _; exact Or.inl rfl
  | cons l ls ih =>
    intro h128
    rcases ih (fun x hx => h128 x (by simp [hx])) with hnil | ⟨e, he1, he2, he3⟩
    · rw [List.map_cons, List.flatten_cons, hnil, List.append_nil]
      cases hq : l.getLast? with
      | none =>
        unfold encodeLine
        rw [hq]
        exact Or.inl rfl
      | some d =>
        have hd128 : d < 128 := h128 l (by simp) d (List.mem_of_mem_getLast? hq)
        have hrange := encodeLineEnd_range d hd128
        refine Or.inr ⟨encodeLineEnd d, hrange.1, hrange.2, ?_⟩
        unfold encodeLine
        rw [hq]
        exact List.getLast?_concat _
    · refine Or.inr ⟨e, he1, he2, ?_⟩
      rw [List.map_cons, List.flatten_cons, List.getLast?_append, he3]
      rfl

/-! C1, C8, C10: theorems about the newline codec. -/

/-- C1 (amended): for every LiteralText, given as a list of lines joined by
single newlines, in which no line is empty, every character is a byte below
128 with the noEol bit set (the spec's LiteralText invariant), and every
line-ending character still has value at least 32 after the bit-5 clear
(so the less-than-32 shift branch is never taken), decoding the encoding is
the identity: decode_newlines (encode_newlines x) = x. -/
theorem c1_literal_roundtrip (lines : List (List Nat))
    (hne : ∀ l ∈ lines, l ≠ [])
    (hchars : ∀ l ∈ lines, ∀ c ∈ l, c < 128 ∧ c &&& 32 ≠ 0)
    (hlast : ∀ l ∈ lines, 32 ≤ clearNoEol (l.getLastD 0)) :
    decode_newlines (encode_newlines (List.intercalate [10] lines)) =
      List.intercalate [10] lines := by
  have hbf : ∀ l ∈ lines, ∀ c ∈ l, isLineBoundary c = false := by
    intro l hl c hc
    have h := hchars l hl c hc
    exact char_not_boundary c h.1 (char_ge32 c h.1 h.2)
  unfold encode_newlines
  rw [splitlines_intercalate lines hne hbf]
  exact decode_encode_lines lines hne hchars hlast

/-- Witness for C1: the two-line program "ab", "cn" round-trips. -/
theorem c1_literal_roundtrip_witness :
    decode_newlines (encode_newlines (List.intercalate [10] [[97, 98], [99, 110]])) =
      List.intercalate [10] [[97, 98], [99, 110]] :=
  c1_literal_roundtrip [[97, 98], [99, 110]] (by decide) (by decide) (by decide)

/-- Counterexample to C1 as stated: the single-line LiteralText " " (byte 32,
noEol bit set, whose line-ending character is handled by the claimed
less-than-32 plus-64 shift) decodes-after-encoding to byte 96, not back to
itself; and for "Ab" the interior byte 65 has the noEol bit clear (allowed by
the claim, which constrains only line-ending characters) and the round trip
returns "a\nb". -/
theorem c1_literal_roundtrip_cex :
    (clearNoEol 32 < 32 ∧ encodeLineEnd 32 = clearNoEol 32 + 64 ∧
      decode_newlines (encode_newlines [32]) = [96] ∧ [96] ≠ [32]) ∧
    (decode_newlines (encode_newlines [65, 98]) = [97, 10, 98] ∧
      [97, 10, 98] ≠ [65, 98]) := by decide

/-- C8: the packed form never contains a literal line break: every character
of the output of encode_newlines differs from byte 10, for every input. -/
theorem c8_packed_no_newline (s : List Nat) :
    (encode_newlines s).all (fun c => c != 10) = true := by
  rw [List.all_eq_true]
  intro c hc
  simp only [bne_iff_ne, ne_eq]
  rcases encode_newlines_mem s c hc with ⟨line, hline, hm⟩ | ⟨line, hline, d, hd, he⟩
  · have hcl : c ∈ line := List.dropLast_subset line hm
    have hb := (splitlines_chars s line c hline hcl).1
    intro e
    rw [e] at hb
    simp [isLineBoundary] at hb
  · have := encodeLineEnd_ge32 d
    omega

/-- C10 (amended): encode_newlines is idempotent on every input whose
characters are all below 128 (in particular on all byte strings the tool
processes); the packed output is then a single boundary-free line whose
final character is in the range 64 to 95, which a second encoding leaves
unchanged. -/
theorem c10_encode_idempotent (s : List Nat) (h128 : ∀ c ∈ s, c < 128) :
    encode_newlines (encode_newlines s) = encode_newlines s := by
  by_cases hes : encode_newlines s = []
  · rw [hes]
    rfl
  · have hbf : ∀ c ∈ encode_newlines s, isLineBoundary c = false :=
      fun c hc => (encode_newlines_chars s h128 c hc).2
    have hsingle : splitlines (encode_newlines s) = [encode_newlines s] :=
      splitlines_single _ hes hbf
    have hlines128 : ∀ l ∈ splitlines s, ∀ c ∈ l, c < 128 :=
      fun l hl c hc => h128 c (splitlines_chars s l c hl hc).2
    rcases encode_newlines_getLast (splitlines s) hlines128 with hnil | ⟨e, he1, he2, he3⟩
    · exact absurd hnil hes
    · have he3' : (encode_newlines s).getLast? = some e := he3
      show ((splitlines (encode_newlines s)).map encodeLine).flatten = encode_newlines s
      rw [hsingle, List.map_cons, List.map_nil, List.flatten_cons,
        List.flatten_nil, List.append_nil]
      rw [encodeLine_getLast?_eq _ e he3', encodeLineEnd_fixed e he2 he1]
      exact dropLast_append_getLast?_eq _ e he3'

/-- Witness for C10: idempotence on the two-line ASCII program "ab", "c". -/
theorem c10_encode_idempotent_witness :
    encode_newlines (encode_newlines [97, 98, 10, 99]) =
      encode_newlines [97, 98, 10, 99] :=
  c10_encode_idempotent [97, 98, 10, 99] (by decide)

/-- Counterexample to C10 as stated (for every input text): for the
single-character input 165, the encoded form is the single byte 133, which
is itself a line boundary for splitlines (U+0085), so a second encoding
yields the empty string. -/
theorem c10_encode_idempotent_cex :
    encode_newlines [165] = [133] ∧
    encode_newlines (encode_newlines [165]) = [] ∧ ([] : List Nat) ≠ [133] := by
  decide

/-! Helper lemmas for the encode-of-decode round trip (C2). -/

lemma decodeChar_eol : ∀ e < 128, e &&& 32 = 0 → 32 ≤ e →
    decodeChar e = [e ||| 32, 10] := by decide

lemma eol_byte_facts : ∀ e < 128, e &&& 32 = 0 → 32 ≤ e →
    (e ||| 32) < 128 ∧ (e ||| 32) &&& 32 ≠ 0 ∧ isLineBoundary (e ||| 32) = false ∧
    encodeLineEnd (e ||| 32) = e ∧ e ||| 32 ≠ 10 ∧ 32 ≤ e ||| 32 := by decide

lemma decodeChar_head : ∀ c < 128, (c &&& 32 = 0 → 32 ≤ c) →
    decodeChar c ≠ [] ∧ (decodeChar c).headD 0 ≠ 10 := by decide

lemma dropWhile_head_false {α : Type} (p : α → Bool) :
    ∀ (l : List α) (c : α) (r : List α), List.dropWhile p l = c :: r → p c = false := by
  intro l
  induction l with
  | nil => intro c r h; simp at h
  | cons x l' ih =>
    intro c r h
    by_cases hp : p x = true
    · rw [List.dropWhile_cons_of_pos hp] at h
      exact ih c r h
    · rw [List.dropWhile_cons_of_neg hp] at h
      rw [← (List.cons.injEq _ _ _ _).mp h |>.1]
      exact Bool.eq_false_iff.mpr hp

lemma getLastD_append_right (u v : List Nat) (d : Nat) (h : v ≠ []) :
    (u ++ v).getLastD d = v.getLastD d := by
  rw [List.getLastD_eq_getLast?, List.getLastD_eq_getLast?, List.getLast?_append]
  cases hv : v.getLast? with
  | none => exact absurd (List.getLast?_eq_none_iff.mp hv) h
  | some y => rfl

lemma rstrip_ne_nil_of_head (c : Nat) (t : List Nat) (h : c ≠ 10) :
    rstripNewlines (c :: t) ≠ [] := by
  unfold rstripNewlines
  intro e
  have h2 : List.dropWhile (fun d => d == 10) ((c :: t).reverse) = [] := by
    have := congrArg List.reverse e
    rwa [List.reverse_reverse, List.reverse_nil] at this
  rw [List.reverse_cons] at h2
  exact dropWhile_append_singleton_ne _ c (by simp [h]) t.reverse h2

lemma encode_decode_packed :
    ∀ (n : Nat) (x : List Nat), x.length ≤ n →
    (∀ c ∈ x, c < 128) → (∀ c ∈ x, c &&& 32 = 0 → 32 ≤ c) →
    x.getLastD 0 &&& 32 = 0 →
    encode_newlines (decode_newlines x) = x := by
  intro n
  induction n with
  | zero =>
    intro x hlen _ _ _
    rw [List.length_eq_zero.mp (Nat.le_zero.mp hlen)]
    rfl
  | succ n ih =>
    intro x hlen h128 heol hlast
    by_cases hx : x = []
    · rw [hx]
      rfl
    · have hgl : x.getLastD 0 = x.getLast hx := by
        rw [List.getLastD_eq_getLast?, List.getLast?_eq_getLast x hx]
        rfl
      have har := List.takeWhile_append_dropWhile (fun c => c &&& 32 != 0) x
      have hrne : x.dropWhile (fun c => c &&& 32 != 0) ≠ [] := by
        intro hre
        have ha : x.takeWhile (fun c => c &&& 32 != 0) = x := by
          conv_rhs => rw [← har, hre]
          rw [List.append_nil]
        have hmem : x.getLast hx ∈ x.takeWhile (fun c => c &&& 32 != 0) := by
          rw [ha]
          exact List.getLast_mem hx
        have := List.mem_takeWhile_imp hmem
        rw [hgl] at hlast
        simp [hlast] at this
      obtain ⟨e, rest, hr⟩ : ∃ e rest,
          x.dropWhile (fun c => c &&& 32 != 0) = e :: rest := by
        cases hc : x.dropWhile (fun c => c &&& 32 != 0) with
        | nil => exact absurd hc hrne
        | cons e rest => exact ⟨e, rest, rfl⟩
      have hxdecomp : x = x.takeWhile (fun c => c &&& 32 != 0) ++ e :: rest := by
        conv_lhs => rw [← har, hr]
      have he0 : e &&& 32 = 0 := by
        have := dropWhile_head_false _ x e rest hr
        simpa using this
      have hemem : e ∈ x := by
        rw [hxdecomp]
        simp
      have he128 : e < 128 := h128 e hemem
      have hege : 32 ≤ e := heol e hemem he0
      have hachars : ∀ c ∈ x.takeWhile (fun d => d &&& 32 != 0),
          c < 128 ∧ c &&& 32 ≠ 0 := by
        intro c hc
        have hcx : c ∈ x := List.takeWhile_subset _ hc
        have := List.mem_takeWhile_imp hc
        exact ⟨h128 c hcx, by simpa using this⟩
      have habf : ∀ c ∈ x.takeWhile (fun d => d &&& 32 != 0) ++ [e ||| 32],
          isLineBoundary c = false := by
        intro c hc
        rcases List.mem_append.mp hc with hm | hm
        · have h2 := hachars c hm
          exact char_not_boundary c h2.1 (char_ge32 c h2.1 h2.2)
        · rw [List.mem_singleton.mp hm]
          exact (eol_byte_facts e he128 he0 hege).2.2.1
      have hdecx : x.flatMap decodeChar =
          x.takeWhile (fun d => d &&& 32 != 0) ++
            ([e ||| 32, 10] ++ rest.flatMap decodeChar) := by
        conv_lhs => rw [hxdecomp]
        rw [List.flatMap_append, List.flatMap_cons,
          flatMap_decodeChar_pass _ hachars, decodeChar_eol e he128 he0 hege]
      have hkey : decode_newlines x =
          (x.takeWhile (fun d => d &&& 32 != 0) ++ [e ||| 32, 10]) ++
            rstripNewlines (rest.flatMap decodeChar) ∨
          (rest = [] ∧ decode_newlines x =
            x.takeWhile (fun d => d &&& 32 != 0) ++ [e ||| 32]) := by
        unfold decode_newlines
        rw [hdecx]
        cases rest with
        | nil =>
          refine Or.inr ⟨rfl, ?_⟩
          have h0 : ([] : List Nat).flatMap decodeChar = [] := rfl
          rw [h0, List.append_nil,
            show ([e ||| 32, 10] : List Nat) = [e ||| 32] ++ [10] from rfl,
            ← List.append_assoc, rstripNewlines_append_newline]
          exact rstripNewlines_eq_self _ (e ||| 32)
            (by rw [List.getLast?_concat]) (eol_byte_facts e he128 he0 hege).2.2.2.2.1
        | cons r2 rest2 =>
          refine Or.inl ?_
          have hr2x : r2 ∈ x := by
            rw [hxdecomp]
            simp
          have hhead := decodeChar_head r2 (h128 r2 hr2x) (heol r2 hr2x)
          obtain ⟨h0, t0, hdc⟩ : ∃ h0 t0, decodeChar r2 = h0 :: t0 := by
            cases hc : decodeChar r2 with
            | nil => exact absurd hc hhead.1
            | cons h0 t0 => exact ⟨h0, t0, rfl⟩
          have hh0 : h0 ≠ 10 := by
            have := hhead.2
            rwa [hdc] at this
          have hWne : rstripNewlines ((r2 :: rest2).flatMap decodeChar) ≠ [] := by
            rw [List.flatMap_cons, hdc, List.cons_append]
            exact rstrip_ne_nil_of_head h0 _ hh0
          rw [← List.append_assoc]
          exact rstripNewlines_append _ _ hWne
      rcases hkey with hdec | ⟨hrnil, hdec⟩
      · -- more lines follow: recurse on the tail
        have hrecurse : encode_newlines (decode_newlines rest) = rest := by
          apply ih rest
          · have hlen2 : x.length = (x.takeWhile (fun d => d &&& 32 != 0)).length +
                (rest.length + 1) := by
              conv_lhs => rw [hxdecomp]
              simp
            omega
          · intro c hc
            exact h128 c (by rw [hxdecomp]; simp [hc])
          · intro c hc
            exact heol c (by rw [hxdecomp]; simp [hc])
          · rcases eq_or_ne rest [] with hrnil | hrne2
            · rw [hrnil]
              rfl
            · have hx2 : x = (x.takeWhile (fun d => d &&& 32 != 0) ++ [e]) ++ rest := by
                conv_lhs => rw [hxdecomp]
                simp
              rw [hx2] at hlast
              rwa [getLastD_append_right _ _ _ hrne2] at hlast
        rw [hdec]
        have hsplit : splitlines ((x.takeWhile (fun d => d &&& 32 != 0) ++
            [e ||| 32, 10]) ++ rstripNewlines (rest.flatMap decodeChar)) =
            (x.takeWhile (fun d => d &&& 32 != 0) ++ [e ||| 32]) ::
              splitlines (rstripNewlines (rest.flatMap decodeChar)) := by
          rw [show (x.takeWhile (fun d => d &&& 32 != 0) ++ [e ||| 32, 10]) ++
              rstripNewlines (rest.flatMap decodeChar) =
              (x.takeWhile (fun d => d &&& 32 != 0) ++ [e ||| 32]) ++
                (10 :: rstripNewlines (rest.flatMap decodeChar)) by simp]
          unfold splitlines
          rw [splitlinesGo_append_newline _ _ [] habf]
          simp
        show ((splitlines _).map encodeLine).flatten = x
        rw [hsplit, List.map_cons, List.flatten_cons]
        have hencline : encodeLine (x.takeWhile (fun d => d &&& 32 != 0) ++
            [e ||| 32]) = x.takeWhile (fun d => d &&& 32 != 0) ++ [e] := by
          rw [encodeLine_getLast?_eq _ (e ||| 32) (List.getLast?_concat _),
            List.dropLast_concat, (eol_byte_facts e he128 he0 hege).2.2.2.1]
        rw [hencline]
        have hrec2 : ((splitlines (rstripNewlines (rest.flatMap decodeChar))).map
            encodeLine).flatten = rest := hrecurse
        rw [hrec2]
        conv_rhs => rw [hxdecomp]
        simp
      · -- x was a single packed line
        rw [hdec]
        have hne2 : x.takeWhile (fun d => d &&& 32 != 0) ++ [e ||| 32] ≠ [] := by
          simp
        show ((splitlines _).map encodeLine).flatten = x
        rw [splitlines_single _ hne2 habf, List.map_cons, List.map_nil,
          List.flatten_cons, List.flatten_nil, List.append_nil]
        rw [encodeLine_getLast?_eq _ (e ||| 32) (List.getLast?_concat _),
          List.dropLast_concat, (eol_byte_facts e he128 he0 hege).2.2.2.1]
        conv_rhs => rw [hxdecomp, hrnil]

/-- C2 (amended): for every packed text (bytes below 128) that contains no
literal newline byte, whose every line-ending byte (noEol bit 0) is at
least 32 (so the inverse of the less-than-32 shift never applies), and
which ends with a line-ending byte (as the PackedText invariant requires of
the final byte of the last logical line), encoding the decoding is the
identity: encode_newlines (decode_newlines x) = x. -/
theorem c2_packed_roundtrip (x : List Nat) (h128 : ∀ c ∈ x, c < 128)
    (hnl : 10 ∉ x) (heol : ∀ c ∈ x, c &&& 32 = 0 → 32 ≤ c)
    (hlast : x.getLastD 0 &&& 32 = 0) :
    encode_newlines (decode_newlines x) = x :=
  encode_decode_packed x.length x le_rfl h128 heol hlast

/-- Witness for C2: the packed text "aAbB" (two logical lines "aa", "bb")
round-trips. -/
theorem c2_packed_roundtrip_witness :
    encode_newlines (decode_newlines [97, 65, 98, 66]) = [97, 65, 98, 66] :=
  c2_packed_roundtrip [97, 65, 98, 66] (by decide) (by decide) (by decide) (by decide)

/-- Counterexample to C2 as stated: the packed text "a" (single byte 97)
satisfies the claim's hypotheses — bytes in range, no newline byte, and no
line-ending byte at all, making the shift condition vacuous — but it does
not end with a line-ending byte, and encoding its decoding clears the noEol
bit of the final byte, yielding "A". -/
theorem c2_packed_roundtrip_cex :
    decode_newlines [97] = [97] ∧
    encode_newlines (decode_newlines [97]) = [65] ∧ [65] ≠ [97] := by decide


/-! Helper lemmas for the codel grid (C3, C4, C5, C6). -/

lemma colorStep_state_irrel (c : Nat) (hc : c < 128) (hv : validCodel c = true) :
    colorStep c (some (0, 192)) = colorStep c none ∧
    colorStep c (some (0, 255)) = colorStep c none ∧
    colorStep c (some (192, 255)) = colorStep c none := by
  have h : ∀ b : Fin 128, validCodel b.val = true →
      colorStep b.val (some (0, 192)) = colorStep b.val none ∧
      colorStep b.val (some (0, 255)) = colorStep b.val none ∧
      colorStep b.val (some (192, 255)) = colorStep b.val none := by decide
  exact h ⟨c, hc⟩ hv

lemma colorStep_valid_some (c : Nat) (hc : c < 128) (hv : validCodel c = true) :
    colorStep c none = some (codelColor c, (0, 192)) ∨
    colorStep c none = some (codelColor c, (0, 255)) ∨
    colorStep c none = some (codelColor c, (192, 255)) := by
  have h : ∀ b : Fin 128, validCodel b.val = true →
      colorStep b.val none = some (codelColor b.val, (0, 192)) ∨
      colorStep b.val none = some (codelColor b.val, (0, 255)) ∨
      colorStep b.val none = some (codelColor b.val, (192, 255)) := by decide
  exact h ⟨c, hc⟩ hv

lemma buildCodels_cons_some (c : Nat) (t : List Nat) (st : Option (Nat × Nat))
    (rgb : RGB) (st2 : Nat × Nat) (h : colorStep c st = some (rgb, st2)) :
    buildCodels (c :: t) st =
      (buildCodels t (some st2)).map (fun l => rgb :: l) := by
  rw [show buildCodels (c :: t) st =
      (match colorStep c st with
        | none => Except.error (PyError.unboundLocalError "intensities")
        | some (rgb, st2) =>
          (buildCodels t (some st2)).map (fun l => rgb :: l)) from rfl, h]

lemma buildCodels_valid :
    ∀ (l : List Nat) (st : Option (Nat × Nat)),
    (st = none ∨ st = some (0, 192) ∨ st = some (0, 255) ∨ st = some (192, 255)) →
    (∀ c ∈ l, c < 128 ∧ validCodel c = true) →
    buildCodels l st = .ok (l.map codelColor) := by
  intro l
  induction l with
  | nil => intro st _ _; rfl
  | cons c t ih =>
    intro st hst hch
    have hc := hch c (by simp)
    have htail : ∀ d ∈ t, d < 128 ∧ validCodel d = true :=
      fun d hd => hch d (by simp [hd])
    have hcs : colorStep c st = colorStep c none := by
      rcases hst with h | h | h | h
      · rw [h]
      · rw [h]; exact (colorStep_state_irrel c hc.1 hc.2).1
      · rw [h]; exact (colorStep_state_irrel c hc.1 hc.2).2.1
      · rw [h]; exact (colorStep_state_irrel c hc.1 hc.2).2.2
    rcases colorStep_valid_some c hc.1 hc.2 with h2 | h2 | h2
    · rw [buildCodels_cons_some c t st _ _ (hcs.trans h2),
        ih (some (0, 192)) (Or.inr (Or.inl rfl)) htail]
      rfl
    · rw [buildCodels_cons_some c t st _ _ (hcs.trans h2),
        ih (some (0, 255)) (Or.inr (Or.inr (Or.inl rfl))) htail]
      rfl
    · rw [buildCodels_cons_some c t st _ _ (hcs.trans h2),
        ih (some (192, 255)) (Or.inr (Or.inr (Or.inr rfl))) htail]
      rfl

lemma maxLineLength_ok (lines : List (List Nat)) (h : lines ≠ []) :
    maxLineLength lines = .ok (maxLen lines) := by
  cases lines with
  | nil => exact absurd rfl h
  | cons l ls =>
    unfold maxLineLength maxLen
    rw [List.map_cons, List.foldl_cons, List.foldl_map, Nat.zero_max]

lemma le_foldl_max (xs : List Nat) : ∀ i, i ≤ xs.foldl max i := by
  induction xs with
  | nil => intro i; exact le_rfl
  | cons a t ih =>
    intro i
    rw [List.foldl_cons]
    exact le_trans (Nat.le_max_left i a) (ih (max i a))

lemma mem_le_foldl_max (xs : List Nat) : ∀ i x, x ∈ xs → x ≤ xs.foldl max i := by
  induction xs with
  | nil => intro i x hx; simp at hx
  | cons a t ih =>
    intro i x hx
    rw [List.foldl_cons]
    rcases List.mem_cons.mp hx with h | h
    · rw [h]
      exact le_trans (Nat.le_max_right i a) (le_foldl_max t (max i a))
    · exact ih (max i a) x h

lemma line_le_maxLen (lines : List (List Nat)) (l : List Nat) (h : l ∈ lines) :
    l.length ≤ maxLen lines :=
  mem_le_foldl_max _ 0 l.length (List.mem_map_of_mem List.length h)

lemma ljust_length (l : List Nat) (w f : Nat) (h : l.length ≤ w) :
    (ljust l w f).length = w := by
  unfold ljust
  rw [List.length_append, List.length_replicate]
  omega

lemma flatten_length_rect {α : Type} :
    ∀ (rows : List (List α)) (w : Nat), (∀ r ∈ rows, r.length = w) →
    rows.flatten.length = rows.length * w := by
  intro rows
  induction rows with
  | nil => intro w _; simp
  | cons r t ih =>
    intro w hw
    rw [List.flatten_cons, List.length_append, hw r (by simp),
      ih w (fun s hs => hw s (by simp [hs])), List.length_cons, Nat.succ_mul]
    omega

lemma flatten_getD_rect {α : Type} (d : α) :
    ∀ (rows : List (List α)) (w : Nat), (∀ r ∈ rows, r.length = w) →
    ∀ i j, i < rows.length → j < w →
    rows.flatten.getD (i * w + j) d = (rows.getD i []).getD j d := by
  intro rows
  induction rows with
  | nil => intro w _ i j hi _; simp at hi
  | cons r t ih =>
    intro w hw i j hi hj
    cases i with
    | zero =>
      rw [Nat.zero_mul, Nat.zero_add, List.flatten_cons,
        List.getD_eq_getElem?_getD,
        List.getElem?_append_left (by rw [hw r (by simp)]; exact hj),
        ← List.getD_eq_getElem?_getD]
      rfl
    | succ i' =>
      have harith : (i' + 1) * w + j = r.length + (i' * w + j) := by
        rw [hw r (by simp), Nat.succ_mul]
        omega
      rw [List.flatten_cons, List.getD_eq_getElem?_getD, harith,
        List.getElem?_append_right (by omega), Nat.add_sub_cancel_left,
        ← List.getD_eq_getElem?_getD]
      exact ih w (fun s hs => hw s (by simp [hs])) i' j (by simpa using hi) hj

lemma getD_map_lt {α β : Type} (f : α → β) (l : List α) (n : Nat) (d : α) (d2 : β)
    (h : n < l.length) : (l.map f).getD n d2 = f (l.getD n d) := by
  rw [List.getD_eq_getElem?_getD, List.getElem?_map, List.getD_eq_getElem?_getD,
    List.getElem?_eq_getElem h]
  rfl

lemma getD_replicate_lt {α : Type} (k n : Nat) (a d : α) (h : n < k) :
    (List.replicate k a).getD n d = a := by
  rw [List.getD_eq_getElem?_getD, List.getElem?_replicate, if_pos h]
  rfl

lemma getD_mem {α : Type} (l : List α) (n : Nat) (d : α) (h : n < l.length) :
    l.getD n d ∈ l := by
  rw [List.getD_eq_getElem?_getD, List.getElem?_eq_getElem h]
  exact List.getElem_mem h

lemma ljust_getD_pad (l : List Nat) (w f j : Nat) (hl : l.length ≤ j) (hj : j < w) :
    (ljust l w f).getD j 0 = f := by
  unfold ljust
  rw [List.getD_eq_getElem?_getD, List.getElem?_append_right hl,
    List.getElem?_replicate, if_pos (by omega)]
  rfl

/-- C3 evaluation: byte 89 (the character Y; lightness bits 0b11, hue 0b001)
fails to decode on its own — the intensities variable is read before
assignment — while after a dark or a light codel it silently takes that
codel's intensity pair, so its color is not determined by the byte alone;
as a whole program it makes the conversion fail. -/
theorem c3_reserved_lightness_failure :
    decodeCharColor 89 = none ∧
    colorStep 89 (some (0, 192)) = some ((0, 0, 192), (0, 192)) ∧
    colorStep 89 (some (192, 255)) = some ((192, 192, 255), (192, 255)) ∧
    ascii_to_image [89] 1 = .error (.unboundLocalError "intensities") := by decide

/-- C4: the character-to-RGB mapping matches the color table bit-exactly:
hue 000 always yields black (0,0,0) and hue 111 always yields white
(255,255,255), for every lightness value including the reserved one; and
whenever the lightness field is not the reserved value 0b11000, the decoded
color is the table color colorOf of the hue and lightness fields. -/
theorem c4_color_table (c : Nat) (hc : c < 128) :
    (c &&& HUE_MASK = BLACK → decodeCharColor c = some (0, 0, 0)) ∧
    (c &&& HUE_MASK = WHITE → decodeCharColor c = some (255, 255, 255)) ∧
    (c &&& LIGHTNESS_MASK ≠ 0b11000 →
      decodeCharColor c = some (colorOf (c &&& HUE_MASK) (c &&& LIGHTNESS_MASK))) := by
  have h : ∀ b : Fin 128,
      (b.val &&& HUE_MASK = BLACK → decodeCharColor b.val = some (0, 0, 0)) ∧
      (b.val &&& HUE_MASK = WHITE → decodeCharColor b.val = some (255, 255, 255)) ∧
      (b.val &&& LIGHTNESS_MASK ≠ 0b11000 →
        decodeCharColor b.val = some (colorOf (b.val &&& HUE_MASK)
          (b.val &&& LIGHTNESS_MASK))) := by decide
  exact h ⟨c, hc⟩

/-- Witness for C4: byte 19 (cyan, light) takes its table color, and byte 7
(white, dark lightness bits) is coerced to pure white. -/
theorem c4_color_table_witness :
    decodeCharColor 19 = some (colorOf (19 &&& HUE_MASK) (19 &&& LIGHTNESS_MASK)) ∧
    decodeCharColor 7 = some (255, 255, 255) :=
  ⟨(c4_color_table 19 (by decide)).2.2 (by decide),
   (c4_color_table 7 (by decide)).2.1 (by decide)⟩

/-- C5 (amended): for every non-empty list of input lines whose characters
are bytes below 128 that are all valid codels (not the reserved lightness
0b11000 with a chromatic hue, which crashes the converter), the built grid
has width the maximum line length, height the number of lines, the codel
list is row-major of length width times height, and every padded cell —
row i, column j at or beyond the length of line i — is the black codel
(0,0,0). -/
theorem c5_grid_geometry (lines : List (List Nat)) (hne : lines ≠ [])
    (hvalid : ∀ l ∈ lines, ∀ c ∈ l, c < 128 ∧ validCodel c = true) :
    build_grid lines = .ok (maxLen lines, lines.length, gridCodels lines) ∧
    (gridCodels lines).length = maxLen lines * lines.length ∧
    (∀ l ∈ lines, l.length ≤ maxLen lines) ∧
    (∀ i j, i < lines.length → j < maxLen lines → (lines.getD i []).length ≤ j →
      (gridCodels lines).getD (i * maxLen lines + j) (1, 1, 1) = (0, 0, 0)) := by
  have hpadvalid : ∀ c ∈ (lines.map (fun line => ljust line (maxLen lines) 32)).flatten,
      c < 128 ∧ validCodel c = true := by
    intro c hc
    rcases List.mem_flatten.mp hc with ⟨row, hrow, hcrow⟩
    rcases List.mem_map.mp hrow with ⟨l, hl, hlr⟩
    rw [← hlr] at hcrow
    unfold ljust at hcrow
    rcases List.mem_append.mp hcrow with hm | hm
    · exact hvalid l hl c hm
    · rw [(List.mem_replicate.mp hm).2]
      exact ⟨by norm_num, by decide⟩
  have hrowlens : ∀ r ∈ lines.map (fun line => ljust line (maxLen lines) 32),
      r.length = maxLen lines := by
    intro r hr
    rcases List.mem_map.mp hr with ⟨l, hl, hlr⟩
    rw [← hlr]
    exact ljust_length l _ 32 (line_le_maxLen lines l hl)
  have hflatlen : ((lines.map (fun line => ljust line (maxLen lines) 32)).flatten).length
      = lines.length * maxLen lines := by
    rw [flatten_length_rect _ (maxLen lines) hrowlens, List.length_map]
  refine ⟨?_, ?_, fun l hl => line_le_maxLen lines l hl, ?_⟩
  · simp only [build_grid, maxLineLength_ok lines hne,
      buildCodels_valid _ none (Or.inl rfl) hpadvalid, gridCodels]
  · unfold gridCodels
    rw [List.length_map, hflatlen, Nat.mul_comm]
  · intro i j hi hj hjlen
    have hidx : i * maxLen lines + j <
        ((lines.map (fun line => ljust line (maxLen lines) 32)).flatten).length := by
      rw [hflatlen]
      have h1 : i * maxLen lines + j < (i + 1) * maxLen lines := by
        rw [Nat.succ_mul]
        omega
      have h2 : (i + 1) * maxLen lines ≤ lines.length * maxLen lines :=
        Nat.mul_le_mul_right _ hi
      omega
    unfold gridCodels
    rw [getD_map_lt codelColor _ _ 0 _ hidx,
      flatten_getD_rect 0 _ (maxLen lines) hrowlens i j
        (by rw [List.length_map]; exact hi) hj,
      getD_map_lt (fun line => ljust line (maxLen lines) 32) lines i [] [] hi,
      ljust_getD_pad _ _ 32 j hjlen hj]
    decide

/-- Witness for C5: the three lines of lengths 3, 5, 2 from the spec's
example (all letter-a codels) build a 5-by-3 grid and the padded cell at
row 0, column 3 is black. -/
theorem c5_grid_geometry_witness :
    build_grid [[97, 97, 97], [97, 97, 97, 97, 97], [97, 97]] =
      .ok (5, 3, gridCodels [[97, 97, 97], [97, 97, 97, 97, 97], [97, 97]]) ∧
    (gridCodels [[97, 97, 97], [97, 97, 97, 97, 97], [97, 97]]).getD
      (0 * 5 + 3) (1, 1, 1) = (0, 0, 0) := by
  have h := c5_grid_geometry [[97, 97, 97], [97, 97, 97, 97, 97], [97, 97]]
    (by decide) (by decide)
  exact ⟨h.1, h.2.2.2 0 3 (by decide) (by decide) (by decide)⟩

/-- Counterexample to C5 as stated: the non-empty line list consisting of
the single line "Y" (byte 89, reserved lightness bits with chromatic hue)
produces no grid at all — the conversion aborts with an UnboundLocalError —
so the output is not a row-major codel list of length width times height. -/
theorem c5_grid_geometry_cex :
    build_grid [[89]] = .error (.unboundLocalError "intensities") ∧
    89 &&& LIGHTNESS_MASK = 0b11000 ∧ 89 &&& HUE_MASK = BLUE := by decide

/-- C6 (amended): when the input yields zero lines after the encode/decode
normalization and splitting — the empty string, or input consisting only of
empty lines, which the encoder drops — the conversion fails fatally with
the uncaught ValueError "max() arg is an empty sequence" raised by
Python's max on an empty sequence, producing no output. -/
theorem c6_empty_input (s : List Nat) (codel_size : Nat)
    (h : splitlines (decode_newlines (encode_newlines s)) = []) :
    ascii_to_image s codel_size =
      .error (.valueError "max() arg is an empty sequence") := by
  unfold ascii_to_image
  rw [h]
  rfl

/-- Witness for C6: the input "\n\n" (only empty lines) fails fatally. -/
theorem c6_empty_input_witness :
    ascii_to_image [10, 10] 1 =
      .error (.valueError "max() arg is an empty sequence") :=
  c6_empty_input [10, 10] 1 (by decide)

/-- Counterexample to C6 as stated: the error raised on empty input is the
ValueError from max, whose message is not "no program lines found"; no such
report exists in the program. -/
theorem c6_empty_input_cex :
    ascii_to_image [] 1 = .error (.valueError "max() arg is an empty sequence") ∧
    "max() arg is an empty sequence" ≠ "no program lines found" :=
  ⟨rfl, by decide⟩

/-- C9: for every rectangular codel grid (every row of length w) and every
positive codel size k, the raster has h*k rows of w*k pixels, and the pixel
at raster coordinate (x, y) equals the grid cell at (x / k, y / k) by
integer division; with k = 1 the dimensions equal the grid's. -/
theorem c9_nearest_neighbor (grid : List (List RGB)) (w k : Nat) (hk : 0 < k)
    (hne : grid ≠ []) (hw : ∀ r ∈ grid, r.length = w) :
    (resize_nearest k grid).length = grid.length * k ∧
    (∀ r ∈ resize_nearest k grid, r.length = w * k) ∧
    (∀ x y, x < w * k → y < grid.length * k →
      ((resize_nearest k grid).getD y []).getD x (0, 0, 0) =
        (grid.getD (y / k) []).getD (x / k) (0, 0, 0)) := by
  have houter : ∀ r ∈ (grid.map (fun row =>
      (row.map (fun px => List.replicate k px)).flatten)).map
        (fun row => List.replicate k row), r.length = k := by
    intro r hr
    rcases List.mem_map.mp hr with ⟨row, _, hrow⟩
    rw [← hrow, List.length_replicate]
  refine ⟨?_, ?_, ?_⟩
  · unfold resize_nearest
    rw [flatten_length_rect _ k houter, List.length_map, List.length_map]
  · intro r hr
    unfold resize_nearest at hr
    rcases List.mem_flatten.mp hr with ⟨blk, hblk, hrblk⟩
    rcases List.mem_map.mp hblk with ⟨row', hrow', hb⟩
    rw [← hb] at hrblk
    rcases List.mem_map.mp hrow' with ⟨row, hrow, hs⟩
    rw [(List.mem_replicate.mp hrblk).2, ← hs]
    have hrows : ∀ q ∈ row.map (fun px => List.replicate k px), q.length = k := by
      intro q hq
      rcases List.mem_map.mp hq with ⟨px, _, hpx⟩
      rw [← hpx, List.length_replicate]
    rw [flatten_length_rect _ k hrows, List.length_map, hw row hrow]
  · intro x y hx hy
    have hyk : y / k < grid.length := (Nat.div_lt_iff_lt_mul hk).mpr hy
    have hxk : x / k < w := (Nat.div_lt_iff_lt_mul hk).mpr hx
    have hysplit : y = y / k * k + y % k := by
      calc y = k * (y / k) + y % k := (Nat.div_add_mod y k).symm
      _ = y / k * k + y % k := by rw [Nat.mul_comm]
    have hxsplit : x = x / k * k + x % k := by
      calc x = k * (x / k) + x % k := (Nat.div_add_mod x k).symm
      _ = x / k * k + x % k := by rw [Nat.mul_comm]
    conv_lhs => rw [hysplit]
    unfold resize_nearest
    rw [flatten_getD_rect [] _ k houter (y / k) (y % k)
      (by rw [List.length_map, List.length_map]; exact hyk) (Nat.mod_lt _ hk)]
    rw [getD_map_lt (fun row => List.replicate k row) _ (y / k) [] []
      (by rw [List.length_map]; exact hyk)]
    rw [getD_replicate_lt k (y % k) _ [] (Nat.mod_lt _ hk)]
    rw [getD_map_lt (fun row => (row.map (fun px => List.replicate k px)).flatten)
      grid (y / k) [] [] hyk]
    have hrowlen : (grid.getD (y / k) []).length = w :=
      hw _ (getD_mem grid (y / k) [] hyk)
    have hinner : ∀ q ∈ (grid.getD (y / k) []).map (fun px => List.replicate k px),
        q.length = k := by
      intro q hq
      rcases List.mem_map.mp hq with ⟨px, _, hpx⟩
      rw [← hpx, List.length_replicate]
    conv_lhs => rw [hxsplit]
    rw [flatten_getD_rect (0, 0, 0) _ k hinner (x / k) (x % k)
      (by rw [List.length_map, hrowlen]; exact hxk) (Nat.mod_lt _ hk)]
    rw [getD_map_lt (fun px => List.replicate k px) _ (x / k) (0, 0, 0) []
      (by rw [hrowlen]; exact hxk)]
    rw [getD_replicate_lt k (x % k) _ (0, 0, 0) (Nat.mod_lt _ hk)]

/-- Witness for C9: a 2-by-1 grid of two colors at codel size 3 has one
codel row of three pixel rows, and pixel (4,2) shows grid cell (1,0). -/
theorem c9_nearest_neighbor_witness :
    (resize_nearest 3 [[(10, 20, 30), (40, 50, 60)]]).length = 1 * 3 ∧
    ((resize_nearest 3 [[(10, 20, 30), (40, 50, 60)]]).getD 2 []).getD 4 (0, 0, 0) =
      ([[((10 : Nat), (20 : Nat), (30 : Nat)), (40, 50, 60)]].getD (2 / 3) []).getD
        (4 / 3) (0, 0, 0) := by
  have h := c9_nearest_neighbor [[(10, 20, 30), (40, 50, 60)]] 2 3
    (by decide) (by decide) (by decide)
  exact ⟨h.1, h.2.2 4 2 (by decide) (by decide)⟩

/-! Helper lemmas for the hex dump (C7). -/

lemma toHexCore_fuel : ∀ (m fuel : Nat) (acc : List Char), m < fuel →
    toHexCore fuel m acc = toHexCore (m + 1) m acc := by
  intro m
  induction m using Nat.strong_induction_on with
  | _ m ih =>
    intro fuel acc hf
    cases fuel with
    | zero => omega
    | succ f =>
      by_cases h16 : m < 16
      · simp only [toHexCore, if_pos h16]
      · have hdiv : m / 16 < m := Nat.div_lt_self (by omega) (by norm_num)
        simp only [toHexCore, if_neg h16]
        rw [ih (m / 16) hdiv f _ (by omega), ih (m / 16) hdiv m _ (by omega)]

lemma toHexCore_acc : ∀ (m : Nat) (acc : List Char),
    toHexCore (m + 1) m acc = toHexCore (m + 1) m [] ++ acc := by
  intro m
  induction m using Nat.strong_induction_on with
  | _ m ih =>
    intro acc
    by_cases h16 : m < 16
    · simp only [toHexCore, if_pos h16]
      rfl
    · have hdiv : m / 16 < m := Nat.div_lt_self (by omega) (by norm_num)
      simp only [toHexCore, if_neg h16]
      rw [toHexCore_fuel (m / 16) m _ hdiv, toHexCore_fuel (m / 16) m _ hdiv,
        ih (m / 16) hdiv (hexDigitChar (m % 16) :: acc),
        ih (m / 16) hdiv [hexDigitChar (m % 16)]]
      rw [List.append_assoc]
      rfl

lemma pyHex_small (n : Nat) (h : n < 16) : pyHex n = [hexDigitChar (n % 16)] := by
  unfold pyHex
  simp only [toHexCore, if_pos h]

lemma pyHex_step (n : Nat) (h : 16 ≤ n) :
    pyHex n = pyHex (n / 16) ++ [hexDigitChar (n % 16)] := by
  have h1 : pyHex n = toHexCore n (n / 16) [hexDigitChar (n % 16)] := by
    unfold pyHex
    simp only [toHexCore, if_neg (by omega : ¬ n < 16)]
  have hdiv : n / 16 < n := Nat.div_lt_self (by omega) (by norm_num)
  rw [h1, toHexCore_fuel (n / 16) n _ hdiv,
    toHexCore_acc (n / 16) [hexDigitChar (n % 16)]]
  rfl

lemma fixedHex_length : ∀ (w n : Nat), (fixedHex w n).length = w := by
  intro w
  induction w with
  | zero => intro n; rfl
  | succ w ih =>
    intro n
    rw [show fixedHex (w + 1) n = fixedHex w (n / 16) ++ [hexDigitChar (n % 16)]
      from rfl, List.length_append, ih]
    rfl

lemma fixedHex_eq_padded : ∀ (w n : Nat), n < 16 ^ w → 0 < w →
    fixedHex w n = List.replicate (w - (pyHex n).length) '0' ++ pyHex n := by
  intro w
  induction w with
  | zero => intro n _ h0; omega
  | succ w ih =>
    intro n hn _
    rw [show fixedHex (w + 1) n = fixedHex w (n / 16) ++ [hexDigitChar (n % 16)]
      from rfl]
    rcases Nat.eq_zero_or_pos w with hw0 | hwpos
    · subst hw0
      have h16 : n < 16 := by simpa using hn
      rw [show fixedHex 0 (n / 16) = [] from rfl, pyHex_small n h16]
      rfl
    · have hdiv : n / 16 < 16 ^ w := by
        rw [Nat.div_lt_iff_lt_mul (by norm_num)]
        rw [pow_succ] at hn
        exact hn
      rw [ih (n / 16) hdiv hwpos]
      by_cases h16 : n < 16
      · have hq : n / 16 = 0 := Nat.div_eq_of_lt h16
        rw [hq, pyHex_small n h16, show pyHex 0 = ['0'] from rfl]
        have harr : w + 1 - ([hexDigitChar (n % 16)] : List Char).length = w := by
          simp
        rw [harr]
        have hz : List.replicate (w - (['0'] : List Char).length) '0' ++ ['0'] =
            List.replicate w '0' := by
          have hw1 : w = (w - 1) + 1 := by omega
          rw [show (['0'] : List Char).length = 1 from rfl]
          conv_rhs => rw [hw1]
          rw [List.replicate_succ']
        rw [hz]
      · rw [pyHex_step n (by omega)]
        rw [List.length_append, show ([hexDigitChar (n % 16)] : List Char).length = 1
          from rfl]
        have harith : w + 1 - ((pyHex (n / 16)).length + 1) =
            w - (pyHex (n / 16)).length := by omega
        rw [harith, List.append_assoc]

lemma padded_hex_pos (n w : Nat) (hw : 0 < w) :
    padded_hex n w = List.replicate (w - (pyHex n).length) '0' ++ pyHex n := by
  show (if 0 < w then List.replicate (w - (pyHex n).length) '0' ++ pyHex n
    else pyHex n) = _
  rw [if_pos hw]

lemma padded_hex_eq_fixedHex (n w : Nat) (hn : n < 16 ^ w) (hw : 0 < w) :
    padded_hex n w = fixedHex w n := by
  rw [padded_hex_pos n w hw, fixedHex_eq_padded w n hn hw]

lemma xxdHexcodesAux_nil : ∀ j, xxdHexcodesAux j [] = List.replicate j ' ' := by
  intro j
  induction j with
  | zero => rfl
  | succ j ih =>
    rw [xxdHexcodesAux]
    simp [ih, List.replicate_succ]

lemma intercalate_singleton {α : Type} (s : List α) (a : List α) :
    List.intercalate s [a] = a := by
  simp [List.intercalate, List.intersperse]

lemma byteGroups_ne_nil (l : List Nat) (h : l ≠ []) : byteGroups l ≠ [] := by
  cases l with
  | nil => exact absurd rfl h
  | cons a t =>
    cases t with
    | nil => simp [byteGroups]
    | cons b t' => simp [byteGroups]

lemma hex_field_eq : ∀ (block : List Nat), (∀ b ∈ block, b < 256) → ∀ j : Nat,
    block.length ≤ 2 * j →
    ∃ t, xxdHexcodesAux j block =
      List.intercalate [' '] ((byteGroups block).map
        (fun g => g.flatMap (fun b => fixedHex 2 b))) ++ List.replicate t ' ' ∧
      (List.intercalate [' '] ((byteGroups block).map
        (fun g => g.flatMap (fun b => fixedHex 2 b)))).length + t ≤ 5 * j := by
  intro block
  induction block using byteGroups.induct with
  | case1 =>
    intro _ j _
    refine ⟨j, ?_, ?_⟩
    · rw [xxdHexcodesAux_nil j]
      simp [byteGroups, List.intercalate]
    · simp [byteGroups, List.intercalate]
      omega
  | case2 b =>
    intro hb j hlen
    cases j with
    | zero => simp at hlen
    | succ j' =>
      have hb2 : b < 256 := hb b (by simp)
      have he : xxdHexcodesAux (j' + 1) [b] =
          padded_hex b 2 ++ [' '] ++ xxdHexcodesAux j' [] := by
        rw [xxdHexcodesAux]
        simp
      refine ⟨j' + 1, ?_, ?_⟩
      · rw [he, xxdHexcodesAux_nil j',
          padded_hex_eq_fixedHex b 2 (by omega) (by norm_num)]
        simp [byteGroups, intercalate_singleton, List.replicate_succ,
          List.append_assoc]
      · simp [byteGroups, intercalate_singleton, fixedHex_length]
        omega
  | case3 b1 b2 rest ih =>
    intro hb j hlen
    cases j with
    | zero => simp at hlen
    | succ j' =>
      have hb1 : b1 < 256 := hb b1 (by simp)
      have hb2 : b2 < 256 := hb b2 (by simp)
      have he : xxdHexcodesAux (j' + 1) (b1 :: b2 :: rest) =
          (padded_hex b1 2 ++ padded_hex b2 2) ++ [' '] ++
            xxdHexcodesAux j' rest := by
        rw [xxdHexcodesAux]
        simp [List.append_assoc]
      rw [he, padded_hex_eq_fixedHex b1 2 (by omega) (by norm_num),
        padded_hex_eq_fixedHex b2 2 (by omega) (by norm_num)]
      cases rest with
      | nil =>
        refine ⟨j' + 1, ?_, ?_⟩
        · rw [xxdHexcodesAux_nil j']
          simp [byteGroups, intercalate_singleton, List.replicate_succ,
            List.append_assoc]
        · simp [byteGroups, intercalate_singleton, fixedHex_length]
          omega
      | cons r rest' =>
        obtain ⟨t, ht, hbound⟩ := ih (fun x hx => hb x (by simp [hx])) j'
          (by simp at hlen ⊢; omega)
        obtain ⟨g, gs, hbg⟩ : ∃ g gs, byteGroups (r :: rest') = g :: gs := by
          cases hc : byteGroups (r :: rest') with
          | nil => exact absurd hc (byteGroups_ne_nil _ (by simp))
          | cons g gs => exact ⟨g, gs, rfl⟩
        refine ⟨t, ?_, ?_⟩
        · rw [ht, show byteGroups (b1 :: b2 :: r :: rest') =
            [b1, b2] :: byteGroups (r :: rest') from rfl, hbg, List.map_cons,
            List.map_cons, List.map_cons, intercalate_cons₂]
          simp [List.append_assoc]
        · rw [show byteGroups (b1 :: b2 :: r :: rest') =
            [b1, b2] :: byteGroups (r :: rest') from rfl, hbg, List.map_cons,
            List.map_cons, intercalate_cons₂]
          rw [hbg, List.map_cons] at hbound
          rw [List.length_append, List.length_append]
          have h4 : (([b1, b2] : List Nat).flatMap (fun b => fixedHex 2 b)).length
              = 4 := by
            simp [fixedHex_length]
          rw [h4]
          simp only [List.length_singleton]
          omega

lemma ljust_absorb (u : List Char) (t w : Nat) (h : u.length + t ≤ w) :
    ljustChars (u ++ List.replicate t ' ') w = ljustChars u w := by
  unfold ljustChars
  rw [List.length_append, List.length_replicate, List.append_assoc,
    ← List.replicate_add]
  have harith : t + (w - (u.length + t)) = w - u.length := by omega
  rw [harith]

lemma xxdRow_eq_specRow (i : Nat) (block : List Nat) (hi : i < 16 ^ 8)
    (hlen : block.length ≤ 16) (hb : ∀ b ∈ block, b < 256) :
    xxdRow i block = specRow i block ++ ['\n'] := by
  obtain ⟨t, ht, hbound⟩ := hex_field_eq block hb 8 (by omega)
  unfold xxdRow specRow xxdAscii
  rw [padded_hex_eq_fixedHex i 8 hi (by norm_num),
    show xxdHexcodes block = xxdHexcodesAux 8 block from rfl, ht,
    ljust_absorb _ t 40 (by omega)]

lemma xxdAux_nil (f i : Nat) : xxdAux f i [] = [] := by
  cases f <;> rfl

lemma specRows_nil (f i : Nat) : specRows f i [] = [] := by
  cases f <;> rfl

lemma xxdAux_eq_specRows :
    ∀ (fuel : Nat) (bs : List Nat) (i : Nat), bs.length ≤ fuel →
    (∀ b ∈ bs, b < 256) → i + bs.length ≤ 16 ^ 8 →
    xxdAux fuel i bs = ((specRows fuel i bs).map (fun r => r ++ ['\n'])).flatten := by
  intro fuel
  induction fuel with
  | zero => intro bs i _ _ _; rfl
  | succ f ih =>
    intro bs i hlen hb hoff
    cases bs with
    | nil => rfl
    | cons b0 bs' =>
      rw [show xxdAux (f + 1) i (b0 :: bs') = xxdRow i ((b0 :: bs').take 16) ++
          xxdAux f (i + 16) ((b0 :: bs').drop 16) from rfl,
        show specRows (f + 1) i (b0 :: bs') = specRow i ((b0 :: bs').take 16) ::
          specRows f (i + 16) ((b0 :: bs').drop 16) from rfl,
        List.map_cons, List.flatten_cons]
      have hrow : xxdRow i ((b0 :: bs').take 16) =
          specRow i ((b0 :: bs').take 16) ++ ['\n'] := by
        apply xxdRow_eq_specRow i _ (by simp at hoff ⊢; omega)
        · rw [List.length_take]
          omega
        · intro b hbm
          exact hb b (List.take_subset 16 _ hbm)
      rw [hrow, List.append_assoc]
      by_cases hshort : (b0 :: bs').length ≤ 16
      · rw [List.drop_eq_nil_of_le hshort, xxdAux_nil, specRows_nil]
        simp
      · rw [ih ((b0 :: bs').drop 16) (i + 16)
          (by rw [List.length_drop]; simp at hlen ⊢; omega)
          (fun b hbm => hb b (List.drop_subset 16 _ hbm))
          (by rw [List.length_drop]; omega)]
        simp [List.append_assoc]

lemma flatten_append_nl_eq :
    ∀ (rows : List (List Char)), rows ≠ [] →
    (rows.map (fun r => r ++ ['\n'])).flatten =
      List.intercalate ['\n'] rows ++ ['\n'] := by
  intro rows
  induction rows with
  | nil => intro h; exact absurd rfl h
  | cons r rs ih =>
    intro _
    cases rs with
    | nil => simp [intercalate_singleton]
    | cons r2 rs' =>
      rw [List.map_cons, List.flatten_cons, ih (by simp), intercalate_cons₂]
      simp [List.append_assoc]

lemma rstripWhitespace_append_newline (u : List Char) :
    rstripWhitespace (u ++ ['\n']) = rstripWhitespace u := by
  unfold rstripWhitespace
  rw [List.reverse_append]
  rw [show (['\n'] : List Char).reverse ++ u.reverse = '\n' :: u.reverse by simp]
  rw [List.dropWhile_cons_of_pos (by decide)]

/-- C7 (amended): for every byte string (bytes below 256, of length at most
16^8 so offsets fit in 8 hex digits), the dump equals the claimed row
format — one row per 16 bytes, each row the 8-digit lowercase hex offset,
": ", the 2-byte hex groups separated by spaces and right-padded to 40
characters, one space, and the ASCII rendering of the bytes of that row —
except that the whole dump is right-stripped of trailing whitespace, so
the final row loses any trailing spaces (the padding of a short hex field
and any ASCII-rendered trailing space bytes) along with the final
newline. -/
theorem c7_hexdump_format (bs : List Nat) (hb : ∀ b ∈ bs, b < 256)
    (hlen : bs.length ≤ 16 ^ 8) :
    xxd bs = rstripWhitespace (specDumpRaw bs) := by
  unfold xxd specDumpRaw
  rw [xxdAux_eq_specRows bs.length bs 0 le_rfl hb (by omega)]
  by_cases hbs : bs = []
  · rw [hbs]
    rfl
  · have hrows_ne : specRows bs.length 0 bs ≠ [] := by
      cases bs with
      | nil => exact absurd rfl hbs
      | cons b t =>
        rw [List.length_cons,
          show specRows (t.length + 1) 0 (b :: t) = specRow 0 ((b :: t).take 16) ::
            specRows t.length 16 ((b :: t).drop 16) from rfl]
        simp
    rw [flatten_append_nl_eq _ hrows_ne, rstripWhitespace_append_newline]

/-- Witness for C7: dumping the 17 bytes 0x00..0x10 matches the row format;
the dump has exactly two rows, and the second row's offset field reads
00000010. -/
theorem c7_hexdump_format_witness :
    xxd (List.range 17) = rstripWhitespace (specDumpRaw (List.range 17)) ∧
    (specRows (List.range 17).length 0 (List.range 17)).length = 2 ∧
    ((specRows (List.range 17).length 0 (List.range 17)).getD 1 []).take 8 =
      ['0', '0', '0', '0', '0', '0', '1', '0'] := by
  refine ⟨c7_hexdump_format (List.range 17) (by decide) (by decide), by decide,
    by decide⟩

/-- Counterexample to C7 as stated: dumping the single byte 0x20 (a space)
yields "00000000: 20" — the trailing rstrip removes the padding of the hex
field and the ASCII rendering of the space byte — instead of the claimed
full row with the 40-character hex field and the ASCII portion. -/
theorem c7_hexdump_format_cex :
    xxd [32] = ('0' :: '0' :: '0' :: '0' :: '0' :: '0' :: '0' :: '0' ::
      ':' :: ' ' :: '2' :: ['0']) ∧
    xxd [32] ≠ specDumpRaw [32] := by decide
